import Mathlib

/-!
Verification of the hierarchical part tree of the Qt_VTK model viewer
(`ModelPart.cpp`, `ModelPartList.cpp`, `mainwindow.cpp`).

The C++ ownership structure (each `ModelPart` exclusively owns its ordered
children) is embedded as a rose tree.  Pointer identity of a `ModelPart*` is
modelled by a node id (`pid`) carried in the payload; `QList::indexOf(this)`
becomes a search for the first child with the given pid.  A `QModelIndex` is
embedded as `none` (the invalid index, denoting the root item) or the path of
child rows from the root item to the referenced node, together with the
index's column.  The VTK renderer's active-actor set is the list of pids of
the nodes whose `vtkActor` has been added.  `QVariant` data cells are strings
(the only values this program stores); the invalid `QVariant()` sentinel is
`Option.none`.
-/

/-- An RGB colour with byte components, as stored by `QColor`. -/
structure Color where
  r : Nat
  g : Nat
  b : Nat
deriving DecidableEq, Repr

/-- A default-constructed `QColor` reports 0 for each component. -/
def Color.default : Color := ⟨0, 0, 0⟩

/-- A `vtkActor`: the render handle for one part.  `source` identifies the
geometry pipeline (`vtkSTLReader` output) its mapper is connected to;
`visibility` and `diffuseColor` are the mutable visual properties the
program touches (`SetVisibility`, `GetProperty()->SetDiffuseColor`). -/
structure Actor where
  source : Nat
  visibility : Bool
  diffuseColor : Color
deriving DecidableEq, Repr

/-- A fresh `vtkActor` is visible and its property has a white diffuse
colour (VTK defaults). -/
def Actor.fresh (src : Nat) : Actor := ⟨src, true, ⟨255, 255, 255⟩⟩

/-- User-facing messages emitted by the main window: status-bar messages
(`statusUpdateMessage(text, durationMs)`) and modal warnings
(`QMessageBox::warning(_, title, text)`). -/
inductive Notification where
  | statusUpdateMessage : String → Nat → Notification
  | warning : String → String → Notification
deriving DecidableEq, Repr

/-- The answer to the `QMessageBox::question` deletion-confirmation dialog. -/
inductive MBResponse where
  | yes
  | no
deriving DecidableEq, Repr

/-- The scalar members of one `ModelPart` object.  `pid` stands in for the
object's address (pointer identity).  `reader` is the `m_reader` /
`vtkSmartPointer<vtkSTLReader> reader` member of `ModelPart`; note that no
member function of the source ever assigns it (in `loadSTL` a local variable
of the same name shadows it), so it stays null. -/
structure PartData where
  pid : Nat
  itemData : List String
  isVisible : Bool
  color : Color
  actor : Option Actor
  reader : Option Nat
deriving DecidableEq, Repr

/-- A `ModelPart` tree: the payload of the node and its exclusively owned,
ordered child list (`m_childItems`). -/
inductive ModelPart where
  | node : PartData → List ModelPart → ModelPart
deriving Repr

/-- Payload of a node. -/
def ModelPart.pdata : ModelPart → PartData
  | .node d _ => d

/-- The ordered child list (`m_childItems`). -/
def ModelPart.childItems : ModelPart → List ModelPart
  | .node _ cs => cs

/-- Induction over `ModelPart` with the hypothesis available for every
child in the list. -/
theorem ModelPart.ind (P : ModelPart → Prop)
    (h : ∀ d cs, (∀ c, c ∈ cs → P c) → P (ModelPart.node d cs)) :
    ∀ t, P t
  | .node d cs => h d cs (fun c _ => ModelPart.ind P h c)

/-- Element of a list at a natural-number position (`QList::at`, in-range). -/
def natAt : List α → Nat → Option α
  | [], _ => none
  | x :: _, 0 => some x
  | _ :: xs, n + 1 => natAt xs n

/-- Element at an `int` position, `none` when negative or past the end. -/
def listAt (l : List α) (i : Int) : Option α :=
  if i < 0 then none else natAt l i.toNat

/-- In-place assignment of a list cell; out-of-range positions are ignored
(mirroring the bound checks the source performs before writing). -/
def setAt : List α → Nat → α → List α
  | [], _, _ => []
  | _ :: xs, 0, v => v :: xs
  | x :: xs, n + 1, v => x :: setAt xs n v

/-- Removal of the element at a position (`QList::takeAt` plus `delete`);
out-of-range positions leave the list unchanged. -/
def eraseAt : List α → Nat → List α
  | [], _ => []
  | _ :: xs, 0 => xs
  | x :: xs, n + 1 => x :: eraseAt xs n

/-- Apply a function to the element at a position, when present. -/
def modifyIdx : List α → Nat → (α → α) → List α
  | [], _, _ => []
  | x :: xs, 0, f => f x :: xs
  | x :: xs, n + 1, f => x :: modifyIdx xs n f

/-- Source `QList<ModelPart*>::indexOf(this)`: first position of the child with the
given identity, `-1` when absent. -/
def qIndexOfPid : List ModelPart → Nat → Int
  | [], _ => -1
  | c :: cs, pid =>
    if c.pdata.pid = pid then 0
    else
      let r := qIndexOfPid cs pid
      if r < 0 then -1 else r + 1

namespace ModelPart

/-- The `ModelPart(data, parent)` constructor: stores the data list and
starts with `isVisible(false)`, no children, no actor and a null reader.
The `parent` argument of the C++ constructor only sets the non-owning
back-reference, which in the tree embedding is the position of the node
inside its parent, so it does not appear here. -/
def construct (data : List String) (pid : Nat) : ModelPart :=
  .node ⟨pid, data, false, Color.default, none, none⟩ []

/-- Source `ModelPart::appendChild(item)`: re-parents `item` to `this` and appends
it to `m_childItems`. -/
def appendChild (t item : ModelPart) : ModelPart :=
  .node t.pdata (t.childItems ++ [item])

/-- Source `ModelPart::child(row)`: the child at `row`, null when out of range. -/
def child (t : ModelPart) (row : Int) : Option ModelPart :=
  listAt t.childItems row

/-- Source `ModelPart::childCount()`. -/
def childCount (t : ModelPart) : Nat :=
  t.childItems.length

/-- Source `ModelPart::columnCount()`. -/
def columnCount (t : ModelPart) : Nat :=
  t.pdata.itemData.length

/-- Source `ModelPart::data(column)`: the stored `QVariant`, or the invalid
`QVariant()` (here `none`) when the column is out of range. -/
def data (t : ModelPart) (column : Int) : Option String :=
  if column < 0 ∨ (t.pdata.itemData.length : Int) ≤ column then none
  else natAt t.pdata.itemData column.toNat

/-- Source `ModelPart::set(column, value)`: writes the cell when the column is in
range, otherwise does nothing. -/
def set (t : ModelPart) (column : Int) (value : String) : ModelPart :=
  if 0 ≤ column ∧ column < (t.pdata.itemData.length : Int) then
    .node { t.pdata with itemData := setAt t.pdata.itemData column.toNat value } t.childItems
  else t

/-- Source `ModelPart::row()`: index of this node in its parent's child list via
`QList::indexOf` (pointer comparison, modelled by pid); the source returns 0
when the parent back-reference is null. -/
def row (parent : Option ModelPart) (t : ModelPart) : Int :=
  match parent with
  | some p => qIndexOfPid p.childItems t.pdata.pid
  | none => 0

/-- Source `ModelPart::removeChild(position)`: destroys the child (and hence its
whole subtree) at `position`; out-of-range positions are ignored. -/
def removeChild (t : ModelPart) (position : Int) : ModelPart :=
  if position < 0 ∨ (t.childItems.length : Int) ≤ position then t
  else .node t.pdata (eraseAt t.childItems position.toNat)

/-- Source `ModelPart::setColour(R, G, B)`. -/
def setColour (t : ModelPart) (R G B : Nat) : ModelPart :=
  .node { t.pdata with color := ⟨R, G, B⟩ } t.childItems

/-- Source `ModelPart::setVisible(isVisible)`. -/
def setVisible (t : ModelPart) (v : Bool) : ModelPart :=
  .node { t.pdata with isVisible := v } t.childItems

/-- Source `ModelPart::visible()`. -/
def visible (t : ModelPart) : Bool :=
  t.pdata.isVisible

/-- Source `ModelPart::getActor()`. -/
def getActor (t : ModelPart) : Option Actor :=
  t.pdata.actor

/-- Source `ModelPart::loadSTL(fileName)`: builds a local `vtkSTLReader` for the
file, updates it, connects a mapper and assigns a fresh actor to the `actor`
member.  `parseOk` is the outcome of the parse; the source never inspects it
(`vtkSTLReader::Update` reports nothing to this code and the actor is
assigned unconditionally), and the local reader variable shadows the
`reader` member, which is left untouched.  `src` identifies the new reader's
output pipeline. -/
def loadSTL (t : ModelPart) (parseOk : Bool) (src : Nat) : ModelPart :=
  .node { t.pdata with actor := some (Actor.fresh src) } t.childItems

/-- Source `ModelPart::getNewActor()`: null when the `actor` or the `reader` member
is null; otherwise an independent actor whose mapper shares the reader's
output and whose property is a deep copy of the original actor's property
(the actor-level visibility flag is not copied and keeps the VTK default). -/
def getNewActor (t : ModelPart) : Option Actor :=
  match t.pdata.actor, t.pdata.reader with
  | none, _ => none
  | _, none => none
  | some a, some r => some ⟨r, true, a.diffuseColor⟩

end ModelPart

mutual

/-- Pre-order enumeration of a node and all of its descendants. -/
def subparts : ModelPart → List ModelPart
  | .node d cs => ModelPart.node d cs :: subpartsList cs

/-- Pre-order enumeration of every node of a forest. -/
def subpartsList : List ModelPart → List ModelPart
  | [] => []
  | c :: cs => subparts c ++ subpartsList cs

end

/-- The identities of a node and all of its descendants, in pre-order. -/
def pidsOf (t : ModelPart) : List Nat :=
  (subparts t).map (fun s => s.pdata.pid)

/-- Well-formedness: all node identities in the tree are distinct (every
`ModelPart` is a distinct heap object). -/
def WF (t : ModelPart) : Prop :=
  ((subparts t).map (fun s => s.pdata.pid)).Nodup

mutual

/-- The render handles of a subtree in pre-order: one handle (identified by
the owning node's pid) for every node whose `actor` member is set. -/
def collectHandles : ModelPart → List Nat
  | .node d cs =>
    (match d.actor with
     | some _ => [d.pid]
     | none => []) ++ collectHandlesList cs

/-- Source `collectHandles` over a forest. -/
def collectHandlesList : List ModelPart → List Nat
  | [] => []
  | c :: cs => collectHandles c ++ collectHandlesList cs

end

mutual

/-- Modelled from the spec's words for claim C2 (comparison only): the walk
collects a node's handle only when a handle is attached AND the node's
visibility is true. -/
def specVisibleHandles : ModelPart → List Nat
  | .node d cs =>
    (match d.actor with
     | some _ => if d.isVisible then [d.pid] else []
     | none => []) ++ specVisibleHandlesList cs

/-- Source `specVisibleHandles` over a forest. -/
def specVisibleHandlesList : List ModelPart → List Nat
  | [] => []
  | c :: cs => specVisibleHandles c ++ specVisibleHandlesList cs

end

/-- Resolve a path of child rows to the node it denotes. -/
def nodeAt : ModelPart → List Nat → Option ModelPart
  | t, [] => some t
  | .node _ cs, i :: p =>
    match natAt cs i with
    | some c => nodeAt c p
    | none => none

/-- Rewrite the node a path denotes in place; an unresolvable path leaves
the tree unchanged. -/
def updateAt : ModelPart → List Nat → (ModelPart → ModelPart) → ModelPart
  | t, [], f => f t
  | .node d cs, i :: p, f => .node d (modifyIdx cs i (fun c => updateAt c p f))

/-- A `QModelIndex`: `none` is the invalid index (denoting the root item);
a valid index carries the path from the root item to its node together with
its column. -/
abbrev QModelIndex := Option (List Nat × Int)

/-- The path of the node an index refers to (the root item for the invalid
index). -/
def pathOf : QModelIndex → List Nat
  | none => []
  | some (p, _) => p

/-- Source `QModelIndex::row()`: the stored row, `-1` for the invalid index. -/
def qrow : QModelIndex → Int
  | none => -1
  | some (p, _) =>
    match p.getLast? with
    | some i => (i : Int)
    | none => -1

/-- Source `QModelIndex::parent()`: drops the last step of the path; a top-level
index's parent is the invalid index.  Qt parent indices have column 0. -/
def qparent : QModelIndex → QModelIndex
  | none => none
  | some (p, _) =>
    match p.dropLast with
    | [] => none
    | q => some (q, 0)

/-- Source `ModelPartList`: the tree adapter.  Its root item is the header
sentinel.  The `begin/endInsertRows`, `begin/endRemoveRows` and
`dataChanged` view notifications bracket the mutations but carry no model
state and are not represented. -/
structure ModelPartList where
  rootItem : ModelPart
deriving Repr

namespace ModelPartList

/-- The `ModelPartList(data)` constructor: builds the root item with the
fixed header labels.  The root object's identity is 0. -/
def construct : ModelPartList :=
  ⟨ModelPart.construct ["Part", "Visible?", "Colour"] 0⟩

/-- Source `ModelPartList::getRootItem()`. -/
def getRootItem (l : ModelPartList) : ModelPart :=
  l.rootItem

/-- Source `ModelPartList::getItem(index)`: the root item for the invalid index,
otherwise the node the index's internal pointer refers to.  A stale index
whose path no longer resolves has no C++ counterpart (the raw pointer would
dangle) and yields `none`. -/
def getItem (l : ModelPartList) : QModelIndex → Option ModelPart
  | none => some l.rootItem
  | some (p, _) => nodeAt l.rootItem p

/-- Source `ModelPartList::columnCount(parent)`: always the root item's column
count. -/
def columnCount (l : ModelPartList) : Nat :=
  l.rootItem.columnCount

/-- Source `ModelPartList::rowCount(parent)`: 0 for a valid parent with a nonzero
column, otherwise the child count of the parent item. -/
def rowCount (l : ModelPartList) (parent : QModelIndex) : Nat :=
  match parent with
  | some (p, col) =>
    if col ≠ 0 then 0
    else
      match nodeAt l.rootItem p with
      | some t => t.childCount
      | none => 0
  | none => l.rootItem.childCount

/-- Source `ModelPartList::index(row, column, parent)`: invalid unless
`hasIndex(row, column, parent)` holds and the parent item has a child at
`row`, in which case it is the index of that child. -/
def index (l : ModelPartList) (row column : Int) (parent : QModelIndex) : QModelIndex :=
  if 0 ≤ row ∧ 0 ≤ column ∧ row < (l.rowCount parent : Int) ∧ column < (l.columnCount : Int) then
    match l.getItem parent with
    | none => none
    | some parentItem =>
      match parentItem.child row with
      | some _ => some (pathOf parent ++ [row.toNat], column)
      | none => none
  else none

/-- Source `ModelPartList::appendChild(parent, data)`: constructs a new part with
the given data under the parent item (the root item for the invalid index),
appends it as the last child and returns the index of the new child,
`createIndex(rowCount(parent) - 1, 0, childPart)`, where `rowCount` is read
after the insertion.  `newPid` is the identity of the freshly allocated
part. -/
def appendChild (l : ModelPartList) (parent : QModelIndex) (data : List String) (newPid : Nat) :
    ModelPartList × QModelIndex :=
  match l.getItem parent with
  | none => (l, none)
  | some _ =>
    let l' : ModelPartList :=
      ⟨updateAt l.rootItem (pathOf parent)
        (fun t => t.appendChild (ModelPart.construct data newPid))⟩
    let r : Int := (l'.rowCount parent : Int) - 1
    (l', some (pathOf parent ++ [r.toNat], 0))

/-- The body of `ModelPartList::removeRows`' loop: `rows` calls of
`parentItem->removeChild(position)`. -/
def removeLoop (t : ModelPart) (position : Int) : Nat → ModelPart
  | 0 => t
  | k + 1 => removeLoop (t.removeChild position) position k

/-- Source `ModelPartList::removeRows(position, rows, parentIndex)`: fails when the
parent item is null or `position < 0` or `position + rows` exceeds the
parent's child count; otherwise removes `rows` consecutive children starting
at `position` (each removal destroys the child's subtree) and succeeds.
The `for` loop runs `max rows 0` times. -/
def removeRows (l : ModelPartList) (position rows : Int) (parentIndex : QModelIndex) :
    ModelPartList × Bool :=
  match l.getItem parentIndex with
  | none => (l, false)
  | some parentItem =>
    if position < 0 ∨ (parentItem.childCount : Int) < position + rows then (l, false)
    else
      (⟨updateAt l.rootItem (pathOf parentIndex)
          (fun t => removeLoop t position rows.toNat)⟩, true)

end ModelPartList

/-- The state of the main window that the claims are about: the part tree
and the renderer's active-actor set (the pids of the parts whose actors are
currently added).  The floor actor that `setupRenderer`/`addFloor` manage is
not a part of the tree and is tracked by the callers of `updateRender`, not
by `updateRender` itself. -/
structure MainWindow where
  partList : ModelPartList
  renderer : List Nat
deriving Repr

mutual

/-- Source `MainWindow::updateRenderFromTree(index)`: adds the part's actor to the
renderer when one is set, then recurses over the children in order.  Valid
tree indices resolve to their parts, so the recursion is the tree walk. -/
def updateRenderFromTree : ModelPart → List Nat → List Nat
  | .node d cs, acc =>
    renderList cs
      (match d.actor with
       | some _ => acc ++ [d.pid]
       | none => acc)

/-- The `for` loop of `updateRenderFromTree` over the child rows. -/
def renderList : List ModelPart → List Nat → List Nat
  | [], acc => acc
  | c :: cs, acc => renderList cs (updateRenderFromTree c acc)

end

/-- Source `MainWindow::updateRender()`: `RemoveAllViewProps` empties the renderer,
then every top-level row of the part list is walked with
`updateRenderFromTree`.  The camera and redraw calls do not change the
actor set. -/
def MainWindow.updateRender (w : MainWindow) : MainWindow :=
  { w with renderer := renderList w.partList.rootItem.childItems [] }

mutual

/-- Source `MainWindow::removeActorsRecursively(part)`: removes the part's actor
from the renderer when one is set, then recurses over the children. -/
def removeActorsRecursively : ModelPart → List Nat → List Nat
  | .node d cs, renderer =>
    removeActorsList cs
      (match d.actor with
       | some _ => renderer.erase d.pid
       | none => renderer)

/-- The `for` loop of `removeActorsRecursively` over the children. -/
def removeActorsList : List ModelPart → List Nat → List Nat
  | [], renderer => renderer
  | c :: cs, renderer => removeActorsList cs (removeActorsRecursively c renderer)

end

/-- The text `QString::number(r) + "," + QString::number(g) + "," +
QString::number(b)` written into the colour data column. -/
def colorText (c : Color) : String :=
  toString c.r ++ "," ++ toString c.g ++ "," ++ toString c.b

/-- The payload effect of `MainWindow::applyPropertiesToPart`: writes the
name cell when `updateName` is set, the visibility and colour cells, the
`color` and `isVisible` members, and, when an actor is attached, its
visibility and diffuse colour. -/
def applyPayload (d : PartData) (name : String) (visibility : Bool) (color : Color)
    (updateName : Bool) : PartData :=
  let data0 := if updateName then setAt d.itemData 0 name else d.itemData
  let data1 := setAt data0 1 (if visibility then "true" else "false")
  let data2 := setAt data1 2 (colorText color)
  { d with
    itemData := data2
    color := color
    isVisible := visibility
    actor :=
      match d.actor with
      | some a => some { a with visibility := visibility, diffuseColor := color }
      | none => none }

/-- Source `MainWindow::applyPropertiesToPart(part, name, visibility, color,
updateName)`: rewrites the part's own payload and touches no child.  The
`dataChanged` view notification and the conditional `updateRender` resync it
also performs carry no tree state. -/
def applyPropertiesToPart : ModelPart → String → Bool → Color → Bool → ModelPart
  | .node d cs, name, visibility, color, updateName =>
    .node (applyPayload d name visibility color updateName) cs

mutual

/-- One child step of `MainWindow::updateChildrenProperties`:
`applyPropertiesToPart(child, QString(), visibility, color, false)` followed
by the recursive call on the child. -/
def propagateChild : ModelPart → Bool → Color → ModelPart
  | .node d cs, visibility, color =>
    .node (applyPayload d "" visibility color false) (propagateList cs visibility color)

/-- Source `propagateChild` over the child rows. -/
def propagateList : List ModelPart → Bool → Color → List ModelPart
  | [], _, _ => []
  | c :: cs, visibility, color =>
    propagateChild c visibility color :: propagateList cs visibility color

end

/-- Source `MainWindow::updateChildrenProperties(part, visibility, color)`: for
every child, apply the properties without the name and recurse; the part's
own payload is untouched. -/
def updateChildrenProperties : ModelPart → Bool → Color → ModelPart
  | .node d cs, visibility, color => .node d (propagateList cs visibility color)

/-- The spec's `propagate(n, v, c)`: the property propagation the Item
Options handler performs on a node and its descendants —
`applyPropertiesToPart` on the node itself followed by
`updateChildrenProperties`.  (The enclosing dialog handler additionally
renames the selected node by passing `updateName = true` and the dialog's
name; the name-free propagation corresponds to `updateName = false`, under
which the source skips the `set(0, name)` write.) -/
def propagate (t : ModelPart) (visibility : Bool) (color : Color) : ModelPart :=
  updateChildrenProperties (applyPropertiesToPart t "" visibility color false) visibility color

/-- Source `QFileInfo::fileName()`: the part of the path after the last directory
separator. -/
def fileBaseName (s : String) : String :=
  ⟨s.data.foldl (fun acc c => if c = '/' then [] else acc ++ [c]) []⟩

/-- Source `MainWindow::createModelPartFromFile(fileName)`.  The worker thread
builds a standalone part (name cell = base name, "true", white colour
text), calls `loadSTL` — whose `vtkSTLReader` reports no outcome to this
code, so `parseOk` is ignored and the actor is attached regardless — then
sets the colour to white and visibility to true.  The queued main-thread
closure appends the part under the current selection (the root item when
the selection is invalid), emits the view notifications, resyncs the
renderer and emits the success status message.  There is no failure path.
`src` is the new reader pipeline's identity and `newPid` the new part's
identity; the `addFloor` call after the resync adds the non-part floor
actor and is tracked outside `updateRender`. -/
def MainWindow.createModelPartFromFile (w : MainWindow) (fileName : String) (parseOk : Bool)
    (src newPid : Nat) (currentIndex : QModelIndex) : MainWindow × List Notification :=
  let justFileName := fileBaseName fileName
  let data := [justFileName, "true", "255,255,255"]
  let newPart0 := ModelPart.construct data newPid
  let newPart1 := newPart0.loadSTL parseOk src
  let newPart2 := (newPart1.setColour 255 255 255).setVisible true
  let parentPath :=
    match currentIndex with
    | some (p, _) => p
    | none => []
  let w1 : MainWindow :=
    { w with partList := ⟨updateAt w.partList.rootItem parentPath (fun t => t.appendChild newPart2)⟩ }
  let w2 := w1.updateRender
  (w2, [Notification.statusUpdateMessage ("Loaded STL file: " ++ fileName) 5000])

/-- Source `MainWindow::on_actionNewGroup_triggered` (accepted path): builds a new
group part `{groupName, "true", "255,255,255"}` and appends it under the
current selection (the root item when the selection is invalid).  The
`layoutChanged` view notification carries no state. -/
def MainWindow.onActionNewGroup (w : MainWindow) (currentIndex : QModelIndex)
    (groupName : String) (newPid : Nat) : MainWindow :=
  let parentPath :=
    match currentIndex with
    | some (p, _) => p
    | none => []
  { w with partList := ⟨updateAt w.partList.rootItem parentPath
      (fun t => t.appendChild (ModelPart.construct [groupName, "true", "255,255,255"] newPid))⟩ }

/-- Source `MainWindow::addModelPartToTree()`: seeds the tree with the top-level
"Model" part under the root item. -/
def MainWindow.addModelPartToTree (w : MainWindow) (newPid : Nat) : MainWindow :=
  { w with partList := ⟨w.partList.rootItem.appendChild
      (ModelPart.construct ["Model", "true", "255,255,255"] newPid)⟩ }

/-- Source `MainWindow::on_actionDeleteFile_triggered()`.  An invalid selection is
rejected with a warning; a part whose name cell reads "Model" is rejected
with the root-item warning; otherwise, on a confirmed dialog, the actors of
the whole selected subtree are removed from the renderer first and only
then is the structural removal `removeRows(row, 1, parent)` performed.  A
selection whose path no longer resolves has no C++ counterpart (the index
would hold a dangling pointer) and is modelled as having no effect. -/
def MainWindow.onActionDeleteFile (w : MainWindow) (currentIndex : QModelIndex)
    (response : MBResponse) : MainWindow × List Notification :=
  match currentIndex with
  | none => (w, [Notification.warning "Selection Error" "Please select an item to delete."])
  | some (path, col) =>
    match nodeAt w.partList.rootItem path with
    | none => (w, [])
    | some selectedItem =>
      if (selectedItem.data 0).getD "" = "Model" then
        (w, [Notification.warning "Invalid Operation" "Cannot delete root item."])
      else
        match response with
        | .no => (w, [])
        | .yes =>
          let renderer1 := removeActorsRecursively selectedItem w.renderer
          let res := w.partList.removeRows (qrow (some (path, col))) 1 (qparent (some (path, col)))
          if res.2 then
            ({ partList := res.1, renderer := renderer1 },
             [Notification.statusUpdateMessage "Item deleted successfully." 5000])
          else
            ({ partList := w.partList, renderer := renderer1 },
             [Notification.statusUpdateMessage "Error deleting item." 5000])

section ListLemmas

variable {α : Type _}

theorem natAt_eq_some_lt {l : List α} {i : Nat} {x : α} (h : natAt l i = some x) :
    i < l.length := by
  induction l generalizing i with
  | nil => simp [natAt] at h
  | cons a as ih =>
    cases i with
    | zero => simp
    | succ n =>
      simp only [natAt] at h
      exact Nat.succ_lt_succ (ih h)

theorem natAt_append_left {l m : List α} {i : Nat} (h : i < l.length) :
    natAt (l ++ m) i = natAt l i := by
  induction l generalizing i with
  | nil => simp at h
  | cons a as ih =>
    cases i with
    | zero => simp [natAt]
    | succ n =>
      simp only [List.cons_append, natAt]
      exact ih (Nat.lt_of_succ_lt_succ h)

theorem natAt_append_length {l : List α} {x : α} :
    natAt (l ++ [x]) l.length = some x := by
  induction l with
  | nil => simp [natAt]
  | cons a as ih => simpa [natAt] using ih

theorem natAt_mem {l : List α} {i : Nat} {x : α} (h : natAt l i = some x) : x ∈ l := by
  induction l generalizing i with
  | nil => simp [natAt] at h
  | cons a as ih =>
    cases i with
    | zero => simp [natAt] at h; simp [h]
    | succ n =>
      simp only [natAt] at h
      exact List.mem_cons_of_mem _ (ih h)

theorem length_modifyIdx (l : List α) (i : Nat) (f : α → α) :
    (modifyIdx l i f).length = l.length := by
  induction l generalizing i with
  | nil => simp [modifyIdx]
  | cons a as ih =>
    cases i with
    | zero => simp [modifyIdx]
    | succ n => simp [modifyIdx, ih]

theorem natAt_modifyIdx_eq (l : List α) (i : Nat) (f : α → α) :
    natAt (modifyIdx l i f) i = (natAt l i).map f := by
  induction l generalizing i with
  | nil => simp [modifyIdx, natAt]
  | cons a as ih =>
    cases i with
    | zero => simp [modifyIdx, natAt]
    | succ n => simp [modifyIdx, natAt, ih]

theorem natAt_modifyIdx_ne (l : List α) (i j : Nat) (f : α → α) (h : j ≠ i) :
    natAt (modifyIdx l i f) j = natAt l j := by
  induction l generalizing i j with
  | nil => simp [modifyIdx]
  | cons a as ih =>
    cases i with
    | zero =>
      cases j with
      | zero => exact absurd rfl h
      | succ m => simp [modifyIdx, natAt]
    | succ n =>
      cases j with
      | zero => simp [modifyIdx, natAt]
      | succ m =>
        simp only [modifyIdx, natAt]
        exact ih n m (fun hc => h (by simp [hc]))

theorem length_setAt (l : List α) (i : Nat) (v : α) :
    (setAt l i v).length = l.length := by
  induction l generalizing i with
  | nil => simp [setAt]
  | cons a as ih =>
    cases i with
    | zero => simp [setAt]
    | succ n => simp [setAt, ih]

theorem natAt_setAt_ne (l : List α) (i j : Nat) (v : α) (h : j ≠ i) :
    natAt (setAt l i v) j = natAt l j := by
  induction l generalizing i j with
  | nil => simp [setAt]
  | cons a as ih =>
    cases i with
    | zero =>
      cases j with
      | zero => exact absurd rfl h
      | succ m => simp [setAt, natAt]
    | succ n =>
      cases j with
      | zero => simp [setAt, natAt]
      | succ m =>
        simp only [setAt, natAt]
        exact ih n m (fun hc => h (by simp [hc]))

theorem eraseAt_eq_take_drop (l : List α) (i : Nat) (h : i < l.length) :
    eraseAt l i = l.take i ++ l.drop (i + 1) := by
  induction l generalizing i with
  | nil => simp at h
  | cons a as ih =>
    cases i with
    | zero => simp [eraseAt]
    | succ n =>
      simp only [eraseAt, List.take_succ_cons, List.drop_succ_cons, List.cons_append]
      rw [ih n (Nat.lt_of_succ_lt_succ h)]

theorem length_eraseAt (l : List α) (i : Nat) (h : i < l.length) :
    (eraseAt l i).length + 1 = l.length := by
  induction l generalizing i with
  | nil => simp at h
  | cons a as ih =>
    cases i with
    | zero => simp [eraseAt]
    | succ n =>
      simp only [eraseAt, List.length_cons]
      rw [← ih n (Nat.lt_of_succ_lt_succ h)]

end ListLemmas

section PathLemmas

theorem nodeAt_updateAt (p : List Nat) (t : ModelPart) (f : ModelPart → ModelPart) :
    nodeAt (updateAt t p f) p = (nodeAt t p).map f := by
  induction p generalizing t with
  | nil => simp [nodeAt, updateAt]
  | cons i p' ih =>
    cases t with
    | node d cs =>
      simp only [updateAt, nodeAt, natAt_modifyIdx_eq]
      cases h : natAt cs i with
      | none => simp
      | some c => simp [ih]

theorem nodeAt_append (t : ModelPart) (p q : List Nat) :
    nodeAt t (p ++ q) = (nodeAt t p).bind (fun s => nodeAt s q) := by
  induction p generalizing t with
  | nil => simp [nodeAt]
  | cons i p' ih =>
    cases t with
    | node d cs =>
      simp only [List.cons_append, nodeAt]
      cases h : natAt cs i with
      | none => simp
      | some c => simp [ih]

/-- Payload of the root after an update along a path, when the update
preserves payloads. -/
theorem updateAt_pdata (p : List Nat) (t : ModelPart) (f : ModelPart → ModelPart)
    (hf : ∀ s, (f s).pdata = s.pdata) : (updateAt t p f).pdata = t.pdata := by
  cases p with
  | nil => simp [updateAt, hf]
  | cons i p' =>
    cases t with
    | node d cs => simp [updateAt, ModelPart.pdata]

end PathLemmas

section AppendLemmas

theorem ModelPart.pdata_appendChild (t x : ModelPart) : (t.appendChild x).pdata = t.pdata := by
  cases t with
  | node d cs => simp [ModelPart.appendChild, ModelPart.pdata, ModelPart.childItems]

theorem ModelPart.childCount_appendChild (t x : ModelPart) :
    (t.appendChild x).childCount = t.childCount + 1 := by
  cases t with
  | node d cs => simp [ModelPart.appendChild, ModelPart.childCount, ModelPart.childItems]

/-- After appending a child at the node a path `q` denotes, every node that
an old path `p` resolved to still resolves, with the same payload, and its
child count grew by one exactly when `p` is the target `q`. -/
theorem nodeAt_updateAt_appendChild (q : List Nat) (x : ModelPart) :
    ∀ (p : List Nat) (t s : ModelPart), nodeAt t p = some s →
      ∃ s', nodeAt (updateAt t q (fun u => u.appendChild x)) p = some s' ∧
        s'.pdata = s.pdata ∧
        s'.childCount = s.childCount + (if p = q then 1 else 0) := by
  induction q with
  | nil =>
    intro p t s hp
    cases p with
    | nil =>
      simp only [nodeAt, Option.some.injEq] at hp
      subst hp
      refine ⟨t.appendChild x, by simp [updateAt, nodeAt], ?_, ?_⟩
      · exact ModelPart.pdata_appendChild t x
      · simp [ModelPart.childCount_appendChild]
    | cons i p' =>
      cases t with
      | node d cs =>
        simp only [nodeAt] at hp
        cases hc : natAt cs i with
        | none => rw [hc] at hp; exact absurd hp (by simp)
        | some c =>
          rw [hc] at hp
          refine ⟨s, ?_, rfl, by simp⟩
          simp only [updateAt, ModelPart.appendChild, ModelPart.pdata, ModelPart.childItems,
            nodeAt]
          rw [natAt_append_left (natAt_eq_some_lt hc), hc]
          exact hp
  | cons j q' ih =>
    intro p t s hp
    cases t with
    | node d cs =>
      cases p with
      | nil =>
        simp only [nodeAt, Option.some.injEq] at hp
        subst hp
        refine ⟨ModelPart.node d (modifyIdx cs j (fun c => updateAt c q' (fun u => u.appendChild x))),
          by simp [updateAt, nodeAt], rfl, ?_⟩
        simp [ModelPart.childCount, ModelPart.childItems, length_modifyIdx]
      | cons i p' =>
        simp only [nodeAt] at hp
        cases hc : natAt cs i with
        | none => rw [hc] at hp; exact absurd hp (by simp)
        | some c =>
          rw [hc] at hp
          by_cases hij : i = j
          · subst hij
            obtain ⟨s', hs', hpd, hcc⟩ := ih p' c s hp
            refine ⟨s', ?_, hpd, ?_⟩
            · simp only [updateAt, nodeAt, natAt_modifyIdx_eq, hc, Option.map_some]
              exact hs'
            · rw [hcc]
              by_cases hpq : p' = q' <;> simp [hpq]
          · refine ⟨s, ?_, rfl, by simp [hij]⟩
            simp only [updateAt, nodeAt]
            rw [natAt_modifyIdx_ne cs j i _ hij, hc]
            exact hp

end AppendLemmas

section RenderLemmas

mutual

/-- The accumulator form of the render walk appends exactly the pre-order
handle collection of the subtree. -/
theorem updateRenderFromTree_eq : ∀ (t : ModelPart) (acc : List Nat),
    updateRenderFromTree t acc = acc ++ collectHandles t
  | .node d cs, acc => by
    simp only [updateRenderFromTree, collectHandles]
    rw [renderList_eq cs]
    cases d.actor <;> simp

/-- The accumulator form of the render walk over a forest. -/
theorem renderList_eq : ∀ (cs : List ModelPart) (acc : List Nat),
    renderList cs acc = acc ++ collectHandlesList cs
  | [], acc => by simp [renderList, collectHandlesList]
  | c :: cs, acc => by
    simp only [renderList, collectHandlesList]
    rw [updateRenderFromTree_eq c, renderList_eq cs, List.append_assoc]

end

end RenderLemmas

mutual

/-- Pre-order list of the name cells (column 0) of a subtree. -/
def labelsOf : ModelPart → List (Option String)
  | .node d cs => ModelPart.data (.node d cs) 0 :: labelsList cs

/-- The name cells of a forest. -/
def labelsList : List ModelPart → List (Option String)
  | [] => []
  | c :: cs => labelsOf c ++ labelsList cs

end

mutual

/-- Pre-order list of the payloads of a subtree. -/
def payloadsOf : ModelPart → List PartData
  | .node d cs => d :: payloadsList cs

/-- The payloads of a forest. -/
def payloadsList : List ModelPart → List PartData
  | [] => []
  | c :: cs => payloadsOf c ++ payloadsList cs

end

section PropagateLemmas

theorem applyPayload_isVisible (d : PartData) (name : String) (v : Bool) (c : Color)
    (un : Bool) : (applyPayload d name v c un).isVisible = v := rfl

theorem applyPayload_color (d : PartData) (name : String) (v : Bool) (c : Color)
    (un : Bool) : (applyPayload d name v c un).color = c := rfl

theorem applyPayload_itemData (d : PartData) (v : Bool) (c : Color) :
    (applyPayload d "" v c false).itemData
      = setAt (setAt d.itemData 1 (if v then "true" else "false")) 2 (colorText c) := by
  simp [applyPayload]

theorem applyPayload_label (cs cs' : List ModelPart) (d : PartData) (v : Bool) (c : Color) :
    ModelPart.data (.node (applyPayload d "" v c false) cs) 0 =
      ModelPart.data (.node d cs') 0 := by
  simp only [ModelPart.data, ModelPart.pdata, applyPayload_itemData, length_setAt]
  rcases Nat.eq_zero_or_pos d.itemData.length with h0 | hpos
  · simp [h0]
  · have hng : ¬((0 : Int) < 0 ∨ (d.itemData.length : Int) ≤ 0) := by omega
    rw [if_neg hng, if_neg hng]
    rw [natAt_setAt_ne _ 2 _ _ (by omega), natAt_setAt_ne _ 1 _ _ (by omega)]

/-- Source `propagate` is the recursive child step applied to the node itself:
both apply the name-free payload update to the node and recurse over the
children. -/
theorem propagate_eq_propagateChild (t : ModelPart) (v : Bool) (c : Color) :
    propagate t v c = propagateChild t v c := by
  cases t with
  | node d cs =>
    simp [propagate, applyPropertiesToPart, updateChildrenProperties, propagateChild]

mutual

theorem payloads_propagateChild : ∀ (t : ModelPart) (v : Bool) (c : Color),
    ∀ e ∈ payloadsOf (propagateChild t v c), e.isVisible = v ∧ e.color = c
  | .node d cs, v, c => by
    simp only [propagateChild, payloadsOf, List.mem_cons]
    rintro e (rfl | he)
    · exact ⟨applyPayload_isVisible _ _ _ _ _, applyPayload_color _ _ _ _ _⟩
    · exact payloads_propagateList cs v c e he

theorem payloads_propagateList : ∀ (cs : List ModelPart) (v : Bool) (c : Color),
    ∀ e ∈ payloadsList (propagateList cs v c), e.isVisible = v ∧ e.color = c
  | [], _, _ => by simp [propagateList, payloadsList]
  | ch :: cs, v, c => by
    simp only [propagateList, payloadsList, List.mem_append]
    rintro e (he | he)
    · exact payloads_propagateChild ch v c e he
    · exact payloads_propagateList cs v c e he

end

mutual

theorem labels_propagateChild : ∀ (t : ModelPart) (v : Bool) (c : Color),
    labelsOf (propagateChild t v c) = labelsOf t
  | .node d cs, v, c => by
    simp only [propagateChild, labelsOf]
    rw [labels_propagateList cs v c, applyPayload_label]

theorem labels_propagateList : ∀ (cs : List ModelPart) (v : Bool) (c : Color),
    labelsList (propagateList cs v c) = labelsList cs
  | [], _, _ => by simp [propagateList, labelsList]
  | ch :: cs, v, c => by
    simp only [propagateList, labelsList]
    rw [labels_propagateChild ch v c, labels_propagateList cs v c]

end

theorem labelsList_modifyIdx (g : ModelPart → ModelPart)
    (hg : ∀ x, labelsOf (g x) = labelsOf x) :
    ∀ (cs : List ModelPart) (i : Nat), labelsList (modifyIdx cs i g) = labelsList cs := by
  intro cs
  induction cs with
  | nil => intro i; simp [modifyIdx]
  | cons c cs ih =>
    intro i
    cases i with
    | zero => simp [modifyIdx, labelsList, hg]
    | succ n => simp [modifyIdx, labelsList, ih]

/-- Updating a node along a path with a label-preserving rewrite preserves
the labels of the whole tree. -/
theorem labels_updateAt (f : ModelPart → ModelPart)
    (hf : ∀ s, labelsOf (f s) = labelsOf s) :
    ∀ (p : List Nat) (t : ModelPart), labelsOf (updateAt t p f) = labelsOf t := by
  intro p
  induction p with
  | nil => intro t; simp [updateAt, hf]
  | cons i p' ih =>
    intro t
    cases t with
    | node d cs =>
      simp only [updateAt, labelsOf]
      rw [labelsList_modifyIdx _ (fun x => ih x) cs i]
      simp [ModelPart.data, ModelPart.pdata]

end PropagateLemmas

section RemoveLemmas

theorem removeChild_pdata (t : ModelPart) (pos : Int) :
    (t.removeChild pos).pdata = t.pdata := by
  simp only [ModelPart.removeChild]
  split
  · rfl
  · cases t with
    | node d cs => rfl

theorem removeLoop_pdata (pos : Int) : ∀ (k : Nat) (t : ModelPart),
    (ModelPartList.removeLoop t pos k).pdata = t.pdata := by
  intro k
  induction k with
  | zero => intro t; rfl
  | succ n ih =>
    intro t
    simp only [ModelPartList.removeLoop]
    rw [ih, removeChild_pdata]

theorem takeLenAppend (A B : List α) : (A ++ B).take A.length = A := by
  induction A with
  | nil => simp
  | cons a as ih => simp [ih]

theorem dropLenAppend (A B : List α) (n : Nat) : (A ++ B).drop (A.length + n) = B.drop n := by
  induction A with
  | nil => simp
  | cons a as ih => simpa [Nat.succ_add] using ih

theorem getLastAppendSingleton (l : List α) (x : α) : (l ++ [x]).getLast? = some x := by
  induction l with
  | nil => rfl
  | cons a as ih =>
    rw [List.cons_append, List.getLast?_cons]
    simpa using ih

/-- The body of the removeRows loop: with a nonnegative in-range start it
removes exactly the `k` consecutive children starting there. -/
theorem removeLoop_childItems (pos : Int) (hpos : 0 ≤ pos) :
    ∀ (k : Nat) (d : PartData) (cs : List ModelPart), pos.toNat + k ≤ cs.length →
      ModelPartList.removeLoop (.node d cs) pos k
        = .node d (cs.take pos.toNat ++ cs.drop (pos.toNat + k)) := by
  intro k
  induction k with
  | zero =>
    intro d cs hlen
    simp [ModelPartList.removeLoop, List.take_append_drop]
  | succ n ih =>
    intro d cs hlen
    have hlt : pos.toNat < cs.length := by omega
    have hbound : ¬(pos < 0 ∨ (cs.length : Int) ≤ pos) := by omega
    simp only [ModelPartList.removeLoop, ModelPart.removeChild, ModelPart.childItems,
      ModelPart.pdata, if_neg hbound]
    rw [eraseAt_eq_take_drop cs pos.toNat hlt]
    have hlen2 : pos.toNat + n ≤ (cs.take pos.toNat ++ cs.drop (pos.toNat + 1)).length := by
      simp only [List.length_append, List.length_take, List.length_drop]
      omega
    rw [ih d _ hlen2]
    have htk : (cs.take pos.toNat ++ cs.drop (pos.toNat + 1)).take pos.toNat = cs.take pos.toNat := by
      have hl : (cs.take pos.toNat).length = pos.toNat := by
        simp [List.length_take]
        omega
      have h2 := takeLenAppend (cs.take pos.toNat) (cs.drop (pos.toNat + 1))
      rwa [hl] at h2
    have hdr : (cs.take pos.toNat ++ cs.drop (pos.toNat + 1)).drop (pos.toNat + n)
        = cs.drop (pos.toNat + (n + 1)) := by
      have hl : (cs.take pos.toNat).length = pos.toNat := by
        simp [List.length_take]
        omega
      have : pos.toNat + n = (cs.take pos.toNat).length + n := by omega
      rw [this, dropLenAppend, List.drop_drop]
      congr 1
      omega
    rw [htk, hdr]

end RemoveLemmas

section ActorRemovalLemmas

theorem notMemEraseSelf {l : List Nat} (h : l.Nodup) (a : Nat) : a ∉ l.erase a := by
  induction l with
  | nil => simp
  | cons b bs ih =>
    by_cases hb : b = a
    · subst hb
      rw [List.erase_cons_head]
      exact (List.nodup_cons.mp h).1
    · rw [List.erase_cons_tail (by simpa using (fun hc => hb (by simpa using hc)))]
      intro hc
      rcases List.mem_cons.mp hc with hc | hc
      · exact hb hc.symm
      · exact ih (List.nodup_cons.mp h).2 hc

mutual

theorem removeActors_sublist : ∀ (t : ModelPart) (r : List Nat),
    (removeActorsRecursively t r).Sublist r
  | .node d cs, r => by
    simp only [removeActorsRecursively]
    cases hd : d.actor with
    | none => exact removeActorsList_sublist cs r
    | some a => exact (removeActorsList_sublist cs _).trans (List.erase_sublist _ _)

theorem removeActorsList_sublist : ∀ (cs : List ModelPart) (r : List Nat),
    (removeActorsList cs r).Sublist r
  | [], r => by simp [removeActorsList]
  | c :: cs, r => by
    simp only [removeActorsList]
    exact (removeActorsList_sublist cs _).trans (removeActors_sublist c r)

end

mutual

theorem removeActors_notMem : ∀ (t : ModelPart) (r : List Nat), r.Nodup →
    ∀ pid ∈ collectHandles t, pid ∉ removeActorsRecursively t r
  | .node d cs, r, hnd, pid, hpid => by
    simp only [collectHandles] at hpid
    simp only [removeActorsRecursively]
    cases hd : d.actor with
    | none =>
      rw [hd] at hpid
      simp only [List.nil_append] at hpid
      exact removeActorsList_notMem cs r hnd pid hpid
    | some a =>
      rw [hd] at hpid
      rcases List.mem_append.mp hpid with hpid | hpid
      · have hpe : pid = d.pid := by simpa using hpid
        subst hpe
        intro hmem
        exact notMemEraseSelf hnd d.pid ((removeActorsList_sublist cs _).mem hmem)
      · exact removeActorsList_notMem cs _ ((List.erase_sublist _ _).nodup hnd) pid hpid

theorem removeActorsList_notMem : ∀ (cs : List ModelPart) (r : List Nat), r.Nodup →
    ∀ pid ∈ collectHandlesList cs, pid ∉ removeActorsList cs r
  | [], r, _, pid, hpid => by simp [collectHandlesList] at hpid
  | c :: cs, r, hnd, pid, hpid => by
    simp only [collectHandlesList] at hpid
    simp only [removeActorsList]
    rcases List.mem_append.mp hpid with hpid | hpid
    · intro hmem
      exact removeActors_notMem c r hnd pid hpid ((removeActorsList_sublist cs _).mem hmem)
    · exact removeActorsList_notMem cs _ ((removeActors_sublist c r).nodup hnd) pid hpid

end

end ActorRemovalLemmas

section SubpartsLemmas

theorem subpartsList_append (as bs : List ModelPart) :
    subpartsList (as ++ bs) = subpartsList as ++ subpartsList bs := by
  induction as with
  | nil => simp [subpartsList]
  | cons a as ih => simp [subpartsList, ih]

theorem mem_subpartsList {p : ModelPart} : ∀ {cs : List ModelPart},
    p ∈ subpartsList cs ↔ ∃ c ∈ cs, p ∈ subparts c := by
  intro cs
  induction cs with
  | nil => simp [subpartsList]
  | cons c cs ih =>
    simp only [subpartsList, List.mem_append, ih, List.mem_cons]
    constructor
    · rintro (h | ⟨c', hc', hp⟩)
      · exact ⟨c, Or.inl rfl, h⟩
      · exact ⟨c', Or.inr hc', hp⟩
    · rintro ⟨c', (rfl | hc'), hp⟩
      · exact Or.inl hp
      · exact Or.inr ⟨c', hc', hp⟩

theorem self_mem_subparts (t : ModelPart) : t ∈ subparts t := by
  cases t with
  | node d cs => simp [subparts]

theorem subparts_sublist_forest {c : ModelPart} : ∀ {cs : List ModelPart}, c ∈ cs →
    (subparts c).Sublist (subpartsList cs) := by
  intro cs
  induction cs with
  | nil => intro h; simp at h
  | cons a as ih =>
    intro h
    rcases List.mem_cons.mp h with rfl | h
    · simpa [subpartsList] using List.sublist_append_left _ _
    · exact (ih h).trans (List.sublist_append_right (subparts a) (subpartsList as))

theorem subparts_sublist_of_mem : ∀ (t : ModelPart), ∀ p ∈ subparts t,
    (subparts p).Sublist (subparts t) := by
  intro t
  induction t using ModelPart.ind with
  | h d cs ih =>
    intro p hp
    rw [show subparts (ModelPart.node d cs) = ModelPart.node d cs :: subpartsList cs from rfl]
      at hp ⊢
    rcases List.mem_cons.mp hp with rfl | hp
    · exact List.Sublist.refl _
    · obtain ⟨c, hc, hpc⟩ := mem_subpartsList.mp hp
      exact ((ih c hc p hpc).trans (subparts_sublist_forest hc)).trans
        (List.sublist_cons_self _ _)

theorem headPids_sublist : ∀ (cs : List ModelPart),
    (cs.map (fun c => c.pdata.pid)).Sublist ((subpartsList cs).map (fun s => s.pdata.pid)) := by
  intro cs
  induction cs with
  | nil => simp [subpartsList]
  | cons c cs ih =>
    cases c with
    | node d ds =>
      simp only [List.map_cons, subpartsList, subparts, List.map_append, ModelPart.pdata,
        List.cons_append]
      exact List.Sublist.cons₂ _ (ih.trans (List.sublist_append_right _ _))

theorem childPids_nodup {root p : ModelPart} (hwf : WF root) (hp : p ∈ subparts root) :
    (p.childItems.map (fun c => c.pdata.pid)).Nodup := by
  have h1 := (subparts_sublist_of_mem root p hp).map (fun s => s.pdata.pid)
  have h2 := h1.nodup hwf
  cases p with
  | node d cs =>
    have h3 : (((subpartsList cs).map (fun s => s.pdata.pid))).Nodup := by
      rw [show subparts (ModelPart.node d cs) = ModelPart.node d cs :: subpartsList cs from rfl]
        at h2
      exact (List.nodup_cons.mp h2).2
    exact (headPids_sublist cs).nodup h3

theorem qIndexOfPid_cons (c : ModelPart) (cs : List ModelPart) (pid : Nat) :
    qIndexOfPid (c :: cs) pid =
      if c.pdata.pid = pid then 0
      else if qIndexOfPid cs pid < 0 then -1 else qIndexOfPid cs pid + 1 := rfl

theorem qIndexOfPid_roundtrip : ∀ (cs : List ModelPart) (ch : ModelPart),
    (cs.map (fun c => c.pdata.pid)).Nodup → ch ∈ cs →
      listAt cs (qIndexOfPid cs ch.pdata.pid) = some ch := by
  intro cs
  induction cs with
  | nil => intro ch _ h; simp at h
  | cons c cs ih =>
    intro ch hnd hch
    by_cases he : c.pdata.pid = ch.pdata.pid
    · have hcch : c = ch := by
        rcases List.mem_cons.mp hch with h | h
        · exact h.symm
        · exfalso
          have hm : ch.pdata.pid ∈ cs.map (fun c => c.pdata.pid) :=
            List.mem_map_of_mem _ h
          have hn : c.pdata.pid ∉ cs.map (fun c => c.pdata.pid) := by
            simpa using (List.nodup_cons.mp hnd).1
          rw [he] at hn
          exact hn hm
      subst hcch
      simp [qIndexOfPid_cons, he, listAt, natAt]
    · rcases List.mem_cons.mp hch with h | h
      · exact absurd (by rw [h]) he
      · have hr := ih ch (List.nodup_cons.mp hnd).2 h
        rw [qIndexOfPid_cons, if_neg he]
        have hr0 : ¬ qIndexOfPid cs ch.pdata.pid < 0 := by
          intro hlt
          rw [listAt, if_pos hlt] at hr
          exact absurd hr (by simp)
        rw [if_neg hr0]
        rw [listAt, if_neg (by omega)]
        have ht : (qIndexOfPid cs ch.pdata.pid + 1).toNat
            = (qIndexOfPid cs ch.pdata.pid).toNat + 1 := by omega
        rw [ht]
        show natAt cs (qIndexOfPid cs ch.pdata.pid).toNat = some ch
        rw [listAt, if_neg hr0] at hr
        exact hr

/-- In a tree with pairwise-distinct node identities, every child is found
again at the row its parent reports for it. -/
theorem roundtrip_of_WF {root : ModelPart} (hwf : WF root) :
    ∀ p ∈ subparts root, ∀ ch ∈ p.childItems,
      p.child (ModelPart.row (some p) ch) = some ch := by
  intro p hp ch hch
  have hnd := childPids_nodup hwf hp
  simp only [ModelPart.row, ModelPart.child]
  exact qIndexOfPid_roundtrip p.childItems ch hnd hch

end SubpartsLemmas

section WFPreservation

theorem updateAt_nil (t : ModelPart) (f : ModelPart → ModelPart) : updateAt t [] f = f t := by
  cases t with
  | node d cs => rfl

theorem pids_appendChild (t x : ModelPart) :
    (subparts (t.appendChild x)).map (fun s => s.pdata.pid)
      = (subparts t).map (fun s => s.pdata.pid)
          ++ (subparts x).map (fun s => s.pdata.pid) := by
  cases t with
  | node d cs =>
    simp [ModelPart.appendChild, ModelPart.pdata, ModelPart.childItems, subparts,
      subpartsList_append, subpartsList]

theorem pidsList_modifyIdx_perm (g : ModelPart → ModelPart) (extra : List Nat) :
    ∀ (cs : List ModelPart) (i : Nat) (c : ModelPart), natAt cs i = some c →
      ((subparts (g c)).map (fun s => s.pdata.pid)).Perm
        ((subparts c).map (fun s => s.pdata.pid) ++ extra) →
      ((subpartsList (modifyIdx cs i g)).map (fun s => s.pdata.pid)).Perm
        ((subpartsList cs).map (fun s => s.pdata.pid) ++ extra) := by
  intro cs
  induction cs with
  | nil => intro i c h; simp [natAt] at h
  | cons a as ih =>
    intro i c h hg
    cases i with
    | zero =>
      simp only [natAt, Option.some.injEq] at h
      subst h
      simp only [modifyIdx, subpartsList, List.map_append]
      refine (hg.append_right _).trans ?_
      rw [List.append_assoc, List.append_assoc]
      exact List.Perm.append_left _ List.perm_append_comm
    | succ n =>
      simp only [natAt] at h
      simp only [modifyIdx, subpartsList, List.map_append]
      have hih := ih n c h hg
      refine (List.Perm.append_left _ hih).trans ?_
      rw [List.append_assoc]

theorem pids_updateAt_appendChild (x : ModelPart) :
    ∀ (q : List Nat) (t s : ModelPart), nodeAt t q = some s →
      ((subparts (updateAt t q (fun u => u.appendChild x))).map (fun s => s.pdata.pid)).Perm
        ((subparts t).map (fun s => s.pdata.pid)
          ++ (subparts x).map (fun s => s.pdata.pid)) := by
  intro q
  induction q with
  | nil =>
    intro t s h
    rw [updateAt_nil, pids_appendChild]
  | cons j q' ih =>
    intro t s h
    cases t with
    | node d cs =>
      simp only [nodeAt] at h
      cases hc : natAt cs j with
      | none => rw [hc] at h; exact absurd h (by simp)
      | some c =>
        rw [hc] at h
        simp only [updateAt, subparts, List.map_cons, ModelPart.pdata, List.cons_append]
        exact (pidsList_modifyIdx_perm _ _ cs j c hc (ih c s h)).cons d.pid

theorem eraseAt_sublist : ∀ (l : List α) (k : Nat), (eraseAt l k).Sublist l := by
  intro l
  induction l with
  | nil => intro k; simp [eraseAt]
  | cons a as ih =>
    intro k
    cases k with
    | zero => exact List.sublist_cons_self _ _
    | succ n => exact List.Sublist.cons₂ _ (ih n)

theorem subpartsList_mono : ∀ {as bs : List ModelPart}, as.Sublist bs →
    (subpartsList as).Sublist (subpartsList bs) := by
  intro as bs h
  induction h with
  | slnil => exact List.Sublist.refl _
  | cons b h ih =>
    exact ih.trans (List.sublist_append_right (subparts b) (subpartsList _))
  | cons₂ a h ih =>
    exact List.Sublist.append (List.Sublist.refl (subparts a)) ih

theorem pids_removeChild (t : ModelPart) (pos : Int) :
    ((subparts (t.removeChild pos)).map (fun s => s.pdata.pid)).Sublist
      ((subparts t).map (fun s => s.pdata.pid)) := by
  cases t with
  | node d cs =>
    simp only [ModelPart.removeChild, ModelPart.childItems, ModelPart.pdata]
    split
    · exact List.Sublist.refl _
    · simp only [subparts, List.map_cons]
      exact List.Sublist.cons₂ _ ((subpartsList_mono (eraseAt_sublist cs pos.toNat)).map _)

theorem pidsList_modifyIdx_sublist (g : ModelPart → ModelPart)
    (hg : ∀ u, ((subparts (g u)).map (fun s => s.pdata.pid)).Sublist
      ((subparts u).map (fun s => s.pdata.pid))) :
    ∀ (cs : List ModelPart) (i : Nat),
      ((subpartsList (modifyIdx cs i g)).map (fun s => s.pdata.pid)).Sublist
        ((subpartsList cs).map (fun s => s.pdata.pid)) := by
  intro cs
  induction cs with
  | nil => intro i; simp [modifyIdx]
  | cons a as ih =>
    intro i
    cases i with
    | zero =>
      simp only [modifyIdx, subpartsList, List.map_append]
      exact List.Sublist.append (hg a) (List.Sublist.refl _)
    | succ n =>
      simp only [modifyIdx, subpartsList, List.map_append]
      exact List.Sublist.append (List.Sublist.refl _) (ih n)

theorem pids_updateAt_sublist (f : ModelPart → ModelPart)
    (hf : ∀ u, ((subparts (f u)).map (fun s => s.pdata.pid)).Sublist
      ((subparts u).map (fun s => s.pdata.pid))) :
    ∀ (q : List Nat) (t : ModelPart),
      ((subparts (updateAt t q f)).map (fun s => s.pdata.pid)).Sublist
        ((subparts t).map (fun s => s.pdata.pid)) := by
  intro q
  induction q with
  | nil =>
    intro t
    rw [updateAt_nil]
    exact hf t
  | cons j q' ih =>
    intro t
    cases t with
    | node d cs =>
      simp only [updateAt, subparts, List.map_cons, ModelPart.pdata]
      exact List.Sublist.cons₂ _ (pidsList_modifyIdx_sublist _ (fun u => ih u) cs j)

/-- Appending a freshly built subtree with unused identities at any node of
a well-formed tree keeps the tree well-formed. -/
theorem WF_updateAt_appendChild {root x : ModelPart} {q : List Nat} {s : ModelPart}
    (hq : nodeAt root q = some s) (hwf : WF root) (hx : WF x)
    (hdisj : ∀ pid ∈ pidsOf x, pid ∉ pidsOf root) :
    WF (updateAt root q (fun u => u.appendChild x)) := by
  have hperm := pids_updateAt_appendChild x q root s hq
  have hnd : ((subparts root).map (fun s => s.pdata.pid)
      ++ (subparts x).map (fun s => s.pdata.pid)).Nodup := by
    refine List.Nodup.append hwf hx ?_
    intro a ha hax
    exact hdisj a hax ha
  exact hperm.nodup_iff.mpr hnd

/-- Removing a child at any node of a well-formed tree keeps the tree
well-formed. -/
theorem WF_updateAt_removeChild (root : ModelPart) (q : List Nat) (pos : Int)
    (hwf : WF root) : WF (updateAt root q (fun u => u.removeChild pos)) :=
  (pids_updateAt_sublist _ (fun u => pids_removeChild u pos) q root).nodup hwf

end WFPreservation

theorem nodeAt_nil (t : ModelPart) : nodeAt t [] = some t := by
  cases t with
  | node d cs => rfl

theorem getItem_pathOf (l : ModelPartList) : ∀ idx : QModelIndex,
    l.getItem idx = nodeAt l.rootItem (pathOf idx) := by
  intro idx
  rcases idx with _ | ⟨p, c⟩
  · simp [ModelPartList.getItem, pathOf, nodeAt_nil]
  · rfl

theorem removeRows_rootItem_pdata (l : ModelPartList) (pos rows : Int) (pi : QModelIndex) :
    (l.removeRows pos rows pi).1.rootItem.pdata = l.rootItem.pdata := by
  cases hg : l.getItem pi with
  | none => simp [ModelPartList.removeRows, hg]
  | some parentItem =>
    simp only [ModelPartList.removeRows, hg]
    split
    · rfl
    · exact updateAt_pdata _ _ _ (fun s => removeLoop_pdata pos rows.toNat s)

/-- C6: propagate(n, v, c) sets visible = v and color = c on n and on every
descendant of n, and the label (the column-0 name cell) of every node in
the tree is unchanged by the call. -/
theorem spec_C6 (t : ModelPart) (v : Bool) (c : Color) :
    (∀ e ∈ payloadsOf (propagate t v c), e.isVisible = v ∧ e.color = c)
    ∧ labelsOf (propagate t v c) = labelsOf t
    ∧ ∀ (root : ModelPart) (path : List Nat),
        labelsOf (updateAt root path (fun s => propagate s v c)) = labelsOf root := by
  refine ⟨?_, ?_, ?_⟩
  · rw [propagate_eq_propagateChild]
    exact payloads_propagateChild t v c
  · rw [propagate_eq_propagateChild]
    exact labels_propagateChild t v c
  · intro root path
    refine labels_updateAt _ (fun s => ?_) path root
    rw [propagate_eq_propagateChild]
    exact labels_propagateChild s v c

/-- C2 (amended): updateRender replaces the renderer's entire active-actor
set with exactly the handles collected by the depth-first pre-order walk
from the root, where a node's handle is collected exactly when a handle is
attached — regardless of the node's visibility flag (the original claim's
"visibility is true" condition is not checked by the walk). -/
theorem spec_C2_amended (w : MainWindow) :
    (w.updateRender).renderer = collectHandlesList w.partList.rootItem.childItems
    ∧ (w.updateRender).partList = w.partList := by
  constructor
  · show renderList w.partList.rootItem.childItems [] = _
    rw [renderList_eq]
    simp
  · rfl

/-- The window state reached by loading cube.stl under the fresh tree and
then applying the item-options flow to it with the visibility box
unchecked: the loaded part keeps its render handle while its visibility is
false. -/
def hiddenPartWindow : MainWindow :=
  let w1 := ((MainWindow.mk ModelPartList.construct []).createModelPartFromFile
    "cube.stl" true 7 1 none).1
  { w1 with
    partList := ⟨updateAt w1.partList.rootItem [0]
      (fun t => updateChildrenProperties
        (applyPropertiesToPart t "cube.stl" false ⟨255, 0, 0⟩ true) false ⟨255, 0, 0⟩)⟩ }

/-- C2 counterexample: a node with a render handle and visibility false is
still collected by updateRender, so the rebuilt actor set differs from the
set described by the claim (handle attached AND visibility true). -/
theorem spec_C2_counterexample :
    (hiddenPartWindow.updateRender).renderer = [1]
    ∧ specVisibleHandlesList hiddenPartWindow.partList.rootItem.childItems = []
    ∧ (hiddenPartWindow.updateRender).renderer
        ≠ specVisibleHandlesList hiddenPartWindow.partList.rootItem.childItems := by
  refine ⟨by decide, by decide, by decide⟩

/-- C3: getNewActor indeed returns none when no geometry is attached, but
after loadSTL has attached geometry it still returns none: loadSTL assigns
a function-local reader and never the reader member, so the null check on
the member always fails and the clone that the claim (and the function's
own documentation) promises can never be produced. -/
theorem spec_C3_bug (data : List String) (pid : Nat) (parseOk : Bool) (src : Nat) :
    (ModelPart.construct data pid).getNewActor = none
    ∧ ((ModelPart.construct data pid).loadSTL parseOk src).getActor = some (Actor.fresh src)
    ∧ ((ModelPart.construct data pid).loadSTL parseOk src).getNewActor = none :=
  ⟨rfl, rfl, rfl⟩

/-- C4: a delete request for the root (the invalid index) is rejected —
the state is returned unchanged with a single warning — and no delete
request ever alters the root item itself: the root is never deletable. -/
theorem spec_C4 (w : MainWindow) :
    (∀ response : MBResponse,
      w.onActionDeleteFile none response
        = (w, [Notification.warning "Selection Error" "Please select an item to delete."]))
    ∧ ∀ (idx : QModelIndex) (response : MBResponse),
        (w.onActionDeleteFile idx response).1.partList.rootItem.pdata
          = w.partList.rootItem.pdata := by
  constructor
  · intro response
    rfl
  · intro idx response
    rcases idx with _ | ⟨path, col⟩
    · rfl
    · simp only [MainWindow.onActionDeleteFile]
      split
      · rfl
      · split
        · rfl
        · split
          · rfl
          · split
            · exact removeRows_rootItem_pdata w.partList _ _ _
            · rfl

/-- C10: every freshly constructed node reports visible() = false regardless
of the visibility string in its data columns; in particular a node created
by the New Group action carries "true" in its visibility column yet reports
visible() = false until setVisible is called on it. -/
theorem spec_C10 (w : MainWindow) (idx : QModelIndex) (groupName : String) (newPid : Nat)
    (parentItem : ModelPart)
    (hres : nodeAt w.partList.rootItem (pathOf idx) = some parentItem) :
    (∀ (data : List String) (pid : Nat), (ModelPart.construct data pid).visible = false)
    ∧ nodeAt (w.onActionNewGroup idx groupName newPid).partList.rootItem (pathOf idx)
        = some (parentItem.appendChild
            (ModelPart.construct [groupName, "true", "255,255,255"] newPid))
    ∧ (ModelPart.construct [groupName, "true", "255,255,255"] newPid).data 1 = some "true"
    ∧ (ModelPart.construct [groupName, "true", "255,255,255"] newPid).visible = false
    ∧ ((ModelPart.construct [groupName, "true", "255,255,255"] newPid).setVisible true).visible
        = true := by
  refine ⟨fun data pid => rfl, ?_, ?_, rfl, rfl⟩
  · have hr : (w.onActionNewGroup idx groupName newPid).partList.rootItem
        = updateAt w.partList.rootItem (pathOf idx)
            (fun t => t.appendChild
              (ModelPart.construct [groupName, "true", "255,255,255"] newPid)) := by
      rcases idx with _ | ⟨p, c⟩ <;> rfl
    rw [hr, nodeAt_updateAt, hres]
    rfl
  · rfl

/-- C10 witness: the hypotheses of spec_C10 hold at the freshly constructed
window with the invalid index, and the group node built there reports
visible() = false. -/
theorem spec_C10_witness :
    nodeAt (MainWindow.mk ModelPartList.construct []).partList.rootItem (pathOf none)
      = some ModelPartList.construct.rootItem
    ∧ (ModelPart.construct ["Engine", "true", "255,255,255"] 1).visible = false := by
  refine ⟨rfl, ?_⟩
  exact (spec_C10 ⟨ModelPartList.construct, []⟩ none "Engine" 1
    ModelPartList.construct.rootItem rfl).2.2.2.1

/-- C1 (amended): every load submission — whether or not the geometry parse
succeeds — appends exactly one fully-formed node under the resolved parent
(the current selection, or the root item when the selection is invalid),
leaves the child count of every other existing node unchanged, and emits
exactly one status notification, the success message; the source has no
failure path. -/
theorem spec_C1_amended (w : MainWindow) (fileName : String) (parseOk : Bool)
    (src newPid : Nat) (currentIndex : QModelIndex) (parentItem : ModelPart)
    (hres : nodeAt w.partList.rootItem (pathOf currentIndex) = some parentItem) :
    (w.createModelPartFromFile fileName parseOk src newPid currentIndex).2
      = [Notification.statusUpdateMessage ("Loaded STL file: " ++ fileName) 5000]
    ∧ nodeAt (w.createModelPartFromFile fileName parseOk src newPid
          currentIndex).1.partList.rootItem (pathOf currentIndex)
      = some (parentItem.appendChild
          ((((ModelPart.construct [fileBaseName fileName, "true", "255,255,255"]
              newPid).loadSTL parseOk src).setColour 255 255 255).setVisible true))
    ∧ ∀ (p : List Nat) (s : ModelPart), nodeAt w.partList.rootItem p = some s →
        ∃ s', nodeAt (w.createModelPartFromFile fileName parseOk src newPid
              currentIndex).1.partList.rootItem p = some s'
          ∧ s'.pdata = s.pdata
          ∧ s'.childCount = s.childCount + (if p = pathOf currentIndex then 1 else 0) := by
  have hroot : (w.createModelPartFromFile fileName parseOk src newPid
        currentIndex).1.partList.rootItem
      = updateAt w.partList.rootItem (pathOf currentIndex)
          (fun t => t.appendChild
            ((((ModelPart.construct [fileBaseName fileName, "true", "255,255,255"]
                newPid).loadSTL parseOk src).setColour 255 255 255).setVisible true)) := by
    rcases currentIndex with _ | ⟨p, c⟩ <;> rfl
  refine ⟨rfl, ?_, ?_⟩
  · rw [hroot, nodeAt_updateAt, hres]
    rfl
  · intro p s hp
    rw [hroot]
    exact nodeAt_updateAt_appendChild (pathOf currentIndex) _ p w.partList.rootItem s hp

/-- The window state after construction: the root item with the seeded
top-level "Model" part. -/
def seededWindow : MainWindow :=
  (MainWindow.mk ModelPartList.construct []).addModelPartToTree 1

/-- C1 counterexample: a load submission whose geometry parse fails still
inserts a node — the root item's row count grows from 1 to 2 — and the one
notification emitted is the success status message, not a failure one. -/
theorem spec_C1_counterexample :
    seededWindow.partList.rootItem.childCount = 1
    ∧ (seededWindow.createModelPartFromFile "missing.stl" false 7 2
        none).1.partList.rootItem.childCount = 2
    ∧ (seededWindow.createModelPartFromFile "missing.stl" false 7 2 none).2
        = [Notification.statusUpdateMessage "Loaded STL file: missing.stl" 5000] := by
  refine ⟨rfl, by decide, by decide⟩

/-- C1 witness: the hypothesis of spec_C1_amended holds at the seeded window
with the invalid selection, and the emitted notification list there is the
single success message. -/
theorem spec_C1_witness :
    nodeAt seededWindow.partList.rootItem (pathOf none)
      = some seededWindow.partList.rootItem
    ∧ (seededWindow.createModelPartFromFile "part.stl" true 3 2 none).2
        = [Notification.statusUpdateMessage "Loaded STL file: part.stl" 5000] := by
  refine ⟨nodeAt_nil _, ?_⟩
  exact (spec_C1_amended seededWindow "part.stl" true 3 2 none
    seededWindow.partList.rootItem (nodeAt_nil _)).1

/-- C5 (amended to nonnegative counts, the only change the counterexample
forces): for 0 ≤ count, removeRows(startRow, count, p) returns false with
the tree unchanged exactly when the range is out of bounds of the parent's
children (startRow < 0 or startRow + count > childCount); otherwise it
returns true, removes the count consecutive children starting at startRow
(their subtrees leave the tree) and decreases the parent's row count by
exactly count. -/
theorem spec_C5_amended (l : ModelPartList) (parentIndex : QModelIndex)
    (parentItem : ModelPart) (startRow count : Int)
    (hres : l.getItem parentIndex = some parentItem) (hcount : 0 ≤ count) :
    (((l.removeRows startRow count parentIndex).2 = false
        ∧ (l.removeRows startRow count parentIndex).1 = l)
      ↔ (startRow < 0 ∨ (parentItem.childCount : Int) < startRow + count))
    ∧ (¬ (startRow < 0 ∨ (parentItem.childCount : Int) < startRow + count) →
        (l.removeRows startRow count parentIndex).2 = true
        ∧ (l.removeRows startRow count parentIndex).1.getItem parentIndex
            = some (ModelPart.node parentItem.pdata
                (parentItem.childItems.take startRow.toNat
                  ++ parentItem.childItems.drop (startRow.toNat + count.toNat)))
        ∧ ((parentItem.childItems.take startRow.toNat
              ++ parentItem.childItems.drop (startRow.toNat + count.toNat)).length : Int)
            = (parentItem.childCount : Int) - count) := by
  have hnp : nodeAt l.rootItem (pathOf parentIndex) = some parentItem := by
    rw [← getItem_pathOf]
    exact hres
  by_cases hb : startRow < 0 ∨ (parentItem.childCount : Int) < startRow + count
  · have hfail : l.removeRows startRow count parentIndex = (l, false) := by
      simp only [ModelPartList.removeRows, hres]
      rw [if_pos hb]
    refine ⟨?_, fun hnb => absurd hb hnb⟩
    rw [hfail]
    simp [hb]
  · have hcc : parentItem.childItems.length = parentItem.childCount := rfl
    have hsr : 0 ≤ startRow := by omega
    have hle : startRow.toNat + count.toNat ≤ parentItem.childItems.length := by omega
    have hsucc : l.removeRows startRow count parentIndex
        = (⟨updateAt l.rootItem (pathOf parentIndex)
            (fun t => ModelPartList.removeLoop t startRow count.toNat)⟩, true) := by
      simp only [ModelPartList.removeRows, hres]
      rw [if_neg hb]
    have hloop : ModelPartList.removeLoop parentItem startRow count.toNat
        = ModelPart.node parentItem.pdata
            (parentItem.childItems.take startRow.toNat
              ++ parentItem.childItems.drop (startRow.toNat + count.toNat)) := by
      cases parentItem with
      | node d cs => exact removeLoop_childItems startRow hsr count.toNat d cs hle
    refine ⟨?_, fun _ => ⟨by rw [hsucc], ?_, ?_⟩⟩
    · rw [hsucc]
      simp only [Bool.true_eq_false, false_and, false_iff]
      exact hb
    · rw [hsucc, getItem_pathOf]
      show nodeAt (updateAt l.rootItem (pathOf parentIndex) _) (pathOf parentIndex) = _
      rw [nodeAt_updateAt, hnp]
      show some (ModelPartList.removeLoop parentItem startRow count.toNat) = _
      rw [hloop]
    · simp only [List.length_append, List.length_take, List.length_drop]
      omega

/-- The part list holding only the seeded top-level "Model" part. -/
def seededList : ModelPartList :=
  ⟨ModelPartList.construct.rootItem.appendChild
    (ModelPart.construct ["Model", "true", "255,255,255"] 1)⟩

/-- C5 counterexample: with the negative count -1 the requested range is in
bounds under the claim's reading (0 ≤ startRow and startRow + count ≤
childCount), yet removeRows returns true, removes nothing and does not
decrease the parent's row count by count (1 ≠ 1 - (-1)): the claim fails
for general integer counts. -/
theorem spec_C5_counterexample :
    (seededList.removeRows 0 (-1) none).2 = true
    ∧ (seededList.removeRows 0 (-1) none).1.rootItem.childCount = 1
    ∧ seededList.rootItem.childCount = 1
    ∧ ¬ ((0 : Int) < 0 ∨ (seededList.rootItem.childCount : Int) < 0 + (-1))
    ∧ ¬ (((seededList.removeRows 0 (-1) none).1.rootItem.childCount : Int)
          = (seededList.rootItem.childCount : Int) - (-1)) := by
  refine ⟨by decide, by decide, by decide, by decide, by decide⟩

/-- C5 witness: the hypotheses of spec_C5_amended hold at the seeded list
with the invalid (root) parent index and count 1, and the in-bounds removal
succeeds there. -/
theorem spec_C5_witness :
    seededList.getItem none = some seededList.rootItem
    ∧ (0 : Int) ≤ 1
    ∧ (seededList.removeRows 0 1 none).2 = true := by
  refine ⟨rfl, by decide, ?_⟩
  exact (((spec_C5_amended seededList none seededList.rootItem 0 1 rfl
    (by decide)).2 (by decide))).1

/-- C7: for a confirmed deletion of a valid selection not named "Model",
the renderer state the handler finishes with is computed by
removeActorsRecursively on the selected subtree against the pre-removal
renderer — that is, the unregistration runs before removeRows finalizes the
structural removal — and it contains none of the removed subtree's render
handles. -/
theorem spec_C7 (w : MainWindow) (path : List Nat) (col : Int) (selectedItem : ModelPart)
    (hn : nodeAt w.partList.rootItem path = some selectedItem)
    (hm : ¬ (selectedItem.data 0).getD "" = "Model")
    (hnd : w.renderer.Nodup) :
    (w.onActionDeleteFile (some (path, col)) MBResponse.yes).1.renderer
      = removeActorsRecursively selectedItem w.renderer
    ∧ ∀ pid ∈ collectHandles selectedItem,
        pid ∉ (w.onActionDeleteFile (some (path, col)) MBResponse.yes).1.renderer := by
  have hren : (w.onActionDeleteFile (some (path, col)) MBResponse.yes).1.renderer
      = removeActorsRecursively selectedItem w.renderer := by
    simp only [MainWindow.onActionDeleteFile, hn]
    rw [if_neg hm]
    split
    · rfl
    · rfl
  refine ⟨hren, ?_⟩
  intro pid hpid
  rw [hren]
  exact removeActors_notMem selectedItem w.renderer hnd pid hpid

/-- The window state after seeding the tree and loading cube.stl under the
root: top-level children "Model" (no actor) and the loaded part, whose
actor (handle 2) is the only one registered. -/
def loadedWindow : MainWindow :=
  (seededWindow.createModelPartFromFile "cube.stl" true 7 2 none).1

/-- The loaded cube part as built by the worker: constructed, STL loaded,
coloured white, set visible. -/
def cubePart : ModelPart :=
  (((ModelPart.construct ["cube.stl", "true", "255,255,255"] 2).loadSTL true
    7).setColour 255 255 255).setVisible true

/-- C7 witness: the hypotheses of spec_C7 hold at the loaded window for the
selection of the loaded part, and its handle 2 is indeed gone from the
renderer when the handler finishes. -/
theorem spec_C7_witness :
    nodeAt loadedWindow.partList.rootItem [1] = some cubePart
    ∧ ¬ (cubePart.data 0).getD "" = "Model"
    ∧ loadedWindow.renderer.Nodup
    ∧ 2 ∉ (loadedWindow.onActionDeleteFile (some ([1], 0)) MBResponse.yes).1.renderer := by
  have hsel : nodeAt loadedWindow.partList.rootItem [1] = some cubePart := by
    show nodeAt loadedWindow.partList.rootItem [1] = some cubePart
    rfl
  refine ⟨hsel, by decide, by decide, ?_⟩
  exact (spec_C7 loadedWindow [1] 0 cubePart hsel (by decide) (by decide)).2
    2 (by decide)

/-- C9: insertChild (ModelPartList::appendChild) appends a new node as the
last child under the parent index — the root item when the index is invalid
— and returns its index (row = the new last row, column 0); resolving
childAt (ModelPartList::index at column 0) at the returned row immediately
afterwards yields exactly the node just inserted.  Parent indices are the
invalid index or column-0 indices, as Qt produces them. -/
theorem spec_C9 (l : ModelPartList) (parent : QModelIndex) (parentItem : ModelPart)
    (data : List String) (newPid : Nat)
    (hpar : parent = none ∨ ∃ p, parent = some (p, 0))
    (hres : l.getItem parent = some parentItem)
    (hcols : 0 < l.columnCount) :
    (l.appendChild parent data newPid).1.getItem parent
      = some (parentItem.appendChild (ModelPart.construct data newPid))
    ∧ (l.appendChild parent data newPid).2
      = some (pathOf parent ++ [parentItem.childCount], 0)
    ∧ qrow (l.appendChild parent data newPid).2 = (parentItem.childCount : Int)
    ∧ (l.appendChild parent data newPid).1.getItem
        ((l.appendChild parent data newPid).1.index
          (qrow (l.appendChild parent data newPid).2) 0 parent)
      = some (ModelPart.construct data newPid) := by
  have hnp : nodeAt l.rootItem (pathOf parent) = some parentItem := by
    rw [← getItem_pathOf]
    exact hres
  have hroot : (l.appendChild parent data newPid).1
      = ⟨updateAt l.rootItem (pathOf parent)
          (fun t => t.appendChild (ModelPart.construct data newPid))⟩ := by
    simp only [ModelPartList.appendChild, hres]
  have hna : nodeAt (l.appendChild parent data newPid).1.rootItem (pathOf parent)
      = some (parentItem.appendChild (ModelPart.construct data newPid)) := by
    rw [hroot]
    show nodeAt (updateAt l.rootItem (pathOf parent) _) (pathOf parent) = _
    rw [nodeAt_updateAt, hnp]
    rfl
  have hgi : (l.appendChild parent data newPid).1.getItem parent
      = some (parentItem.appendChild (ModelPart.construct data newPid)) := by
    rw [getItem_pathOf]
    exact hna
  have hrc : (l.appendChild parent data newPid).1.rowCount parent
      = parentItem.childCount + 1 := by
    rcases hpar with rfl | ⟨p, rfl⟩
    · show (l.appendChild none data newPid).1.rootItem.childCount = _
      have h0 : nodeAt (l.appendChild none data newPid).1.rootItem []
          = some (parentItem.appendChild (ModelPart.construct data newPid)) := hna
      rw [nodeAt_nil] at h0
      rw [Option.some.inj h0]
      exact ModelPart.childCount_appendChild _ _
    · show (if (0 : Int) ≠ 0 then 0
        else match nodeAt (l.appendChild (some (p, 0)) data newPid).1.rootItem p with
          | some t => t.childCount
          | none => 0) = _
      rw [if_neg (by omega)]
      have h0 : nodeAt (l.appendChild (some (p, 0)) data newPid).1.rootItem p
          = some (parentItem.appendChild (ModelPart.construct data newPid)) := hna
      rw [h0]
      exact ModelPart.childCount_appendChild _ _
  have hcols2 : (l.appendChild parent data newPid).1.columnCount = l.columnCount := by
    rw [hroot]
    show (updateAt l.rootItem (pathOf parent) _).pdata.itemData.length
        = l.rootItem.pdata.itemData.length
    rw [updateAt_pdata _ _ _ (fun s => ModelPart.pdata_appendChild s _)]
  have hidx2 : (l.appendChild parent data newPid).2
      = some (pathOf parent ++ [parentItem.childCount], 0) := by
    simp only [ModelPartList.appendChild, hres]
    have hr1 : ((ModelPartList.mk (updateAt l.rootItem (pathOf parent)
        (fun t => t.appendChild (ModelPart.construct data newPid)))).rowCount parent)
        = parentItem.childCount + 1 := by
      have := hrc
      rw [hroot] at this
      exact this
    rw [hr1]
    have ht : (((parentItem.childCount + 1 : Nat) : Int) - 1).toNat
        = parentItem.childCount := by omega
    rw [ht]
  have hqrow : qrow (l.appendChild parent data newPid).2
      = (parentItem.childCount : Int) := by
    rw [hidx2]
    show (match (pathOf parent ++ [parentItem.childCount]).getLast? with
      | some i => (i : Int)
      | none => -1) = _
    rw [getLastAppendSingleton]
  have hchild : (parentItem.appendChild (ModelPart.construct data newPid)).child
      (parentItem.childCount : Int) = some (ModelPart.construct data newPid) := by
    cases parentItem with
    | node d cs =>
      show listAt (cs ++ [ModelPart.construct data newPid]) ((cs.length : Nat) : Int)
          = some (ModelPart.construct data newPid)
      rw [listAt, if_neg (by omega)]
      have ht : (((cs.length : Nat) : Int)).toNat = cs.length := by omega
      rw [ht]
      exact natAt_append_length
  have hindex : (l.appendChild parent data newPid).1.index
      (qrow (l.appendChild parent data newPid).2) 0 parent
      = some (pathOf parent ++ [parentItem.childCount], 0) := by
    rw [hqrow]
    simp only [ModelPartList.index]
    rw [if_pos ?hcond]
    case hcond =>
      refine ⟨by omega, by omega, ?_, by omega⟩
      rw [hrc]
      omega
    have ht : ((parentItem.childCount : Nat) : Int).toNat = parentItem.childCount := by
      omega
    rw [hgi]
    simp only [hchild, ht]
  refine ⟨hgi, hidx2, hqrow, ?_⟩
  rw [hindex, getItem_pathOf]
  show nodeAt (l.appendChild parent data newPid).1.rootItem
      (pathOf parent ++ [parentItem.childCount]) = _
  rw [nodeAt_append, hna]
  show nodeAt (parentItem.appendChild (ModelPart.construct data newPid))
      [parentItem.childCount] = _
  cases parentItem with
  | node d cs =>
    show (match natAt (cs ++ [ModelPart.construct data newPid]) cs.length with
      | some c => nodeAt c []
      | none => none) = _
    rw [natAt_append_length]
    exact nodeAt_nil _

/-- C9 witness: the hypotheses of spec_C9 hold at the freshly constructed
part list with the invalid parent index, and resolving the returned index's
row through index/getItem yields the inserted node. -/
theorem spec_C9_witness :
    (ModelPartList.construct = ModelPartList.construct ∨
      ∃ p, (none : QModelIndex) = some (p, 0))
    ∧ ModelPartList.construct.getItem none = some ModelPartList.construct.rootItem
    ∧ 0 < ModelPartList.construct.columnCount
    ∧ (ModelPartList.construct.appendChild none ["Wheel", "true", "255,255,255"] 1).1.getItem
        ((ModelPartList.construct.appendChild none ["Wheel", "true", "255,255,255"] 1).1.index
          (qrow (ModelPartList.construct.appendChild none
            ["Wheel", "true", "255,255,255"] 1).2) 0 none)
      = some (ModelPart.construct ["Wheel", "true", "255,255,255"] 1) := by
  refine ⟨Or.inl rfl, rfl, by decide, ?_⟩
  exact (spec_C9 ModelPartList.construct none ModelPartList.construct.rootItem
    ["Wheel", "true", "255,255,255"] 1 (Or.inl rfl) rfl (by decide)).2.2.2

/-- C8: in a well-formed tree (pairwise-distinct node identities — distinct
heap objects), every node reachable in the tree is its parent's child at
the row position the parent reports for it
(parent.child(node.row()) == node); and well-formedness, hence the
invariant, is preserved by every appendChild of a freshly allocated node
and by every removeChild. -/
theorem spec_C8 (root : ModelPart) (hwf : WF root) :
    (∀ p ∈ subparts root, ∀ ch ∈ p.childItems,
        p.child (ModelPart.row (some p) ch) = some ch)
    ∧ (∀ (q : List Nat) (s x : ModelPart), nodeAt root q = some s → WF x →
        (∀ pid ∈ pidsOf x, pid ∉ pidsOf root) →
          WF (updateAt root q (fun u => u.appendChild x))
          ∧ ∀ p ∈ subparts (updateAt root q (fun u => u.appendChild x)),
              ∀ ch ∈ p.childItems, p.child (ModelPart.row (some p) ch) = some ch)
    ∧ (∀ (q : List Nat) (pos : Int),
        WF (updateAt root q (fun u => u.removeChild pos))
        ∧ ∀ p ∈ subparts (updateAt root q (fun u => u.removeChild pos)),
            ∀ ch ∈ p.childItems, p.child (ModelPart.row (some p) ch) = some ch) := by
  refine ⟨roundtrip_of_WF hwf, ?_, ?_⟩
  · intro q s x hq hx hdisj
    have hwf2 := WF_updateAt_appendChild hq hwf hx hdisj
    exact ⟨hwf2, roundtrip_of_WF hwf2⟩
  · intro q pos
    have hwf2 := WF_updateAt_removeChild root q pos hwf
    exact ⟨hwf2, roundtrip_of_WF hwf2⟩

instance (t : ModelPart) : Decidable (WF t) :=
  List.nodupDecidable _

/-- C8 witness: the seeded tree is well-formed and its top-level "Model"
part is found again at the row the root reports for it. -/
theorem spec_C8_witness :
    WF seededList.rootItem
    ∧ seededList.rootItem.child
        (ModelPart.row (some seededList.rootItem)
          (ModelPart.construct ["Model", "true", "255,255,255"] 1))
      = some (ModelPart.construct ["Model", "true", "255,255,255"] 1) := by
  refine ⟨by decide, ?_⟩
  refine (spec_C8 seededList.rootItem (by decide)).1 seededList.rootItem
    (self_mem_subparts _) (ModelPart.construct ["Model", "true", "255,255,255"] 1) ?_
  show ModelPart.construct ["Model", "true", "255,255,255"] 1
      ∈ seededList.rootItem.childItems
  simp [seededList, ModelPartList.construct, ModelPart.construct, ModelPart.appendChild,
    ModelPart.childItems, ModelPart.pdata]
